import Mathlib

/-!
Verification of the bintrim scan-and-trim engine (src/main.rs, src/scanner.rs).

The Rust sources are shallowly embedded: pure functions become Lean
functions, the scan/trim workers become event-trace functions over the
inputs the IO layer would supply, and the TUI control loop becomes a step
relation on an application-state structure.  Rust `u64` sizes are `Nat`
(parsing checks the `2^64` bound where the source parses a `u64`), and
Rust `&str`/`String` operations are re-implemented structurally on
`String.data` so that every definition evaluates inside the kernel; each
helper documents the Rust method it models.
-/

namespace Bintrim

/-! ## String primitives (models of the Rust `str` methods used by the sources) -/

/-- ASCII whitespace test: agrees with Rust `char::is_whitespace` and with
Lean's `Char.isWhitespace` on the ASCII range that `lipo` output uses. -/
def isWs (c : Char) : Bool :=
  c.toNat = 32 || c.toNat = 9 || c.toNat = 13 || c.toNat = 10

/-- Model of Rust `str::trim`: drop whitespace from both ends. -/
def strTrim (s : String) : String :=
  ⟨((s.data.dropWhile isWs).reverse.dropWhile isWs).reverse⟩

/-- Model of Rust `str::starts_with` for a string pattern. -/
def strStartsWith (s p : String) : Bool := p.data.isPrefixOf s.data

/-- Model of Rust `str::ends_with` for a string pattern. -/
def strEndsWith (s p : String) : Bool := p.data.reverse.isPrefixOf s.data.reverse

/-- Character-count drop; used to model `str::strip_prefix` once
`starts_with` is known (the prefixes stripped in the sources are ASCII, so
char count and byte count coincide). -/
def strDrop (s : String) (n : Nat) : String := ⟨s.data.drop n⟩

/-- Model of Rust `String`/`str` equality. -/
def strEq (s t : String) : Bool := s.data == t.data

/-- Model of Rust `str::contains` for a string pattern: some position of
`s` starts with `pat`. -/
def strContains (s pat : String) : Bool :=
  (List.range (s.data.length + 1)).any (fun i => pat.data.isPrefixOf (s.data.drop i))

/-- Helper for `splitWs`: accumulate the current (reversed) token. -/
def splitWsAux : List Char → List Char → List String
  | [], cur => if cur.isEmpty then [] else [⟨cur.reverse⟩]
  | c :: cs, cur =>
    if isWs c then
      if cur.isEmpty then splitWsAux cs [] else ⟨cur.reverse⟩ :: splitWsAux cs []
    else splitWsAux cs (c :: cur)

/-- Model of Rust `str::split_whitespace`: whitespace-separated tokens,
empties dropped. -/
def splitWs (s : String) : List String := splitWsAux s.data []

/-- Fuel-driven splitter on a separator (the fuel is the input length, which
bounds the number of steps; the separators used are nonempty literals). -/
def splitOnCore (sep : List Char) : Nat → List Char → List Char → List (List Char)
  | 0, rest, cur => [cur.reverse ++ rest]
  | fuel + 1, rest, cur =>
    match rest with
    | [] => [cur.reverse]
    | c :: cs =>
      if sep.isPrefixOf rest then
        cur.reverse :: splitOnCore sep fuel (rest.drop sep.length) []
      else
        splitOnCore sep fuel cs (c :: cur)

/-- Model of Rust `str::split` for a nonempty string pattern, collected into
a list (as `split("...").nth(k)` uses it). -/
def strSplitOn (s sep : String) : List String :=
  (splitOnCore sep.data (s.data.length + 1) s.data []).map (fun l => ⟨l⟩)

/-- Strip one trailing carriage return, as Rust `str::lines` does per line. -/
def stripCR (s : String) : String :=
  if strEndsWith s "\r" then ⟨s.data.dropLast⟩ else s

/-- Model of Rust `str::lines`: split on newline, drop the final empty piece
produced by a trailing newline, strip a trailing carriage return per line. -/
def rustLines (s : String) : List String :=
  let parts := strSplitOn s "\n"
  let parts := if parts.getLast? = some "" then parts.dropLast else parts
  parts.map stripCR

/-- Decimal digit value of a character, if any. -/
def digitVal (c : Char) : Option Nat :=
  if 48 ≤ c.toNat ∧ c.toNat ≤ 57 then some (c.toNat - 48) else none

/-- Accumulate decimal digits; fails on any non-digit. -/
def parseDigits : List Char → Nat → Option Nat
  | [], acc => some acc
  | c :: cs, acc =>
    match digitVal c with
    | some d => parseDigits cs (acc * 10 + d)
    | none => none

/-- Model of Rust `str::parse::<u64>`: an optional leading `+`, then one or
more decimal digits, value below `2^64`. -/
def parse_u64 (s : String) : Option Nat :=
  let t := if strStartsWith s "+" then strDrop s 1 else s
  if t.data.isEmpty then none
  else
    match parseDigits t.data 0 with
    | some n => if n < 2 ^ 64 then some n else none
    | none => none

/-- Lexicographic strict order on char lists by code point; the order Rust's
`Ord for String` (byte-lexicographic on UTF-8, which is code-point order)
induces. -/
def strLtL : List Char → List Char → Bool
  | [], [] => false
  | [], _ :: _ => true
  | _ :: _, [] => false
  | a :: as, b :: bs =>
    if a.toNat < b.toNat then true
    else if b.toNat < a.toNat then false
    else strLtL as bs

/-- Model of Rust `String` comparison returning `Ordering.lt`. -/
def strLt (s t : String) : Bool := strLtL s.data t.data

/-- Model of Rust `Ord::cmp` on `String` (`a.name.cmp(&b.name)`). -/
def cmpStr (s t : String) : Ordering :=
  if strLt s t then Ordering.lt else if strLt t s then Ordering.gt else Ordering.eq

/-- Model of Rust `Ord::cmp` on `u64`. -/
def cmpNat (a b : Nat) : Ordering :=
  if a < b then Ordering.lt else if b < a then Ordering.gt else Ordering.eq

/-! ## Data model (scanner.rs lines 5-20) -/

/-- One architecture found inside a binary (scanner.rs `ArchInfo`). -/
structure ArchInfo where
  cpu_type : String
  size_bytes : Option Nat
deriving DecidableEq

/-- One discovered bundle (scanner.rs `AppInfo`); paths are strings. -/
structure AppInfo where
  name : String
  path : String
  binary_path : String
  architectures : List ArchInfo
  selected : Bool
deriving DecidableEq

/-- scanner.rs lines 23-27: some slice is named exactly `x86_64`. -/
def AppInfo.has_x86_64 (a : AppInfo) : Bool :=
  a.architectures.any (fun arch => strEq arch.cpu_type "x86_64")

/-- scanner.rs lines 29-33: some slice's name starts with `arm64`. -/
def AppInfo.has_arm64 (a : AppInfo) : Bool :=
  a.architectures.any (fun arch => strStartsWith arch.cpu_type "arm64")

/-- scanner.rs lines 35-40, `x86_64_size_mb`, modelled at byte granularity:
the source divides by 1024 twice into an `f64`, a division by the constant
`2^20` that is exact and strictly order-preserving for every byte count
below `2^53` (all conceivable binaries), so the comparator below compares
the byte counts directly. -/
def AppInfo.x86_64_size (a : AppInfo) : Option Nat :=
  (a.architectures.find? (fun arch => strEq arch.cpu_type "x86_64")).bind
    (fun arch => arch.size_bytes)

/-! ## Selection model (main.rs) -/

/-- main.rs lines 34-38. -/
inductive SortMode where
  | Size
  | Alphabetical
deriving DecidableEq

/-- main.rs lines 761-765: are all eligible (x86_64-bearing) entries
currently selected (vacuously true when none is eligible)? -/
def allEligibleSelected (apps : List AppInfo) : Bool :=
  (apps.filter (fun a => a.has_x86_64)).all (fun a => a.selected)

/-- main.rs lines 760-773, `App::toggle_select_all`: set every eligible
entry's `selected` to the negation of `allEligibleSelected`. -/
def toggle_select_all (apps : List AppInfo) : List AppInfo :=
  let new_state := !allEligibleSelected apps
  apps.map (fun app => if app.has_x86_64 then { app with selected := new_state } else app)

/-- main.rs lines 752-758, `App::toggle_selected`: flip the entry at
`selected_index`, but only when it has the removable architecture. -/
def toggle_selected (apps : List AppInfo) (i : Nat) : List AppInfo :=
  match apps[i]? with
  | some app =>
    if app.has_x86_64 then apps.set i { app with selected := !app.selected } else apps
  | none => apps

/-- main.rs lines 903-909: the `SortMode::Size` comparator passed to
`sort_by` (descending known sizes first, `None` sizes after, names on
`None`/`None` ties). -/
def sizeCmp (a b : AppInfo) : Ordering :=
  match a.x86_64_size, b.x86_64_size with
  | some sa, some sb => cmpNat sb sa
  | some _, none => Ordering.lt
  | none, some _ => Ordering.gt
  | none, none => cmpStr a.name b.name

/-- Sort relation induced by the size comparator: `a` may be placed no
later than `b`. -/
def sizeRel (a b : AppInfo) : Prop := sizeCmp a b ≠ Ordering.gt

/-- Sort relation induced by the name comparator (main.rs line 912 and
scanner.rs line 87). -/
def nameRel (a b : AppInfo) : Prop := cmpStr a.name b.name ≠ Ordering.gt

instance : DecidableRel sizeRel := fun _ _ => instDecidableNot

instance : DecidableRel nameRel := fun _ _ => instDecidableNot

/-- main.rs lines 899-915, `App::sort_apps`.  Rust `Vec::sort_by` is a
stable sort, and a stable sort's output is uniquely determined by the
comparator and the input order; it is realised here by `List.insertionSort`,
which is stable for the induced relation. -/
def sort_apps (mode : SortMode) (apps : List AppInfo) : List AppInfo :=
  match mode with
  | SortMode.Size => List.insertionSort sizeRel apps
  | SortMode.Alphabetical => List.insertionSort nameRel apps

/-! ## Fat-report parser (scanner.rs lines 230-274, `parse_lipo_output`) -/

/-- Body of the outer loop's architecture test (scanner.rs lines 236-241):
trim the line; if it starts with `architecture `, the slice name is the rest
of the trimmed line, trimmed again (`strip_prefix` + `trim`). -/
def archNameOfLine (line : String) : Option String :=
  let t := strTrim line
  if strStartsWith t "architecture " then some (strTrim (strDrop t 13)) else none

/-- Body of the lookahead loop (scanner.rs lines 246-256): trim the line; if
it starts with `size `, whitespace-split it and parse the second token as a
`u64`; any failure means the scan continues to the next line. -/
def sizeOfLine (line : String) : Option Nat :=
  let t := strTrim line
  if strStartsWith t "size " then
    match (splitWs t)[1]? with
    | some tok => parse_u64 tok
    | none => none
  else none

/-- scanner.rs lines 234-267: scan every line; each architecture line emits
one `ArchInfo` whose size is the first parseable size line among the next
nine lines (Rust indices `i+1 .. min(i+10, len)`). -/
def parse_lipo_aux : List String → List ArchInfo
  | [] => []
  | line :: rest =>
    match archNameOfLine line with
    | some name => { cpu_type := name, size_bytes := (rest.take 9).findSome? sizeOfLine } :: parse_lipo_aux rest
    | none => parse_lipo_aux rest

/-- scanner.rs lines 230-274 on an already-split line list (Rust
`output.lines()` is `rustLines`): `None` when no architecture line was
found, otherwise the slice list. -/
def parse_lipo_lines (lines : List String) : Option (List ArchInfo) :=
  let architectures := parse_lipo_aux lines
  if architectures.isEmpty then none else some architectures

/-- scanner.rs `parse_lipo_output` on the raw output text. -/
def parse_lipo_output (output : String) : Option (List ArchInfo) :=
  parse_lipo_lines (rustLines output)

/-! ## Architecture extraction (scanner.rs lines 148-228)

The `lipo` subprocess invocations are IO; the extraction logic is embedded
as a function of the primary command's outcome and of the outcome the
fallback `lipo -archs` command would produce if invoked.  `none` for an
outcome models `Command::output()` returning `Err` (the source's `.ok()?`). -/

/-- Captured outcome of one external command (exit status plus the two
lossily-decoded streams). -/
structure CmdOutput where
  success : Bool
  stdout : String
  stderr : String
deriving DecidableEq

/-- scanner.rs lines 214-228, `parse_architecture_from_stderr`: first line
containing `is architecture:` whose text after the first marker trims to
something nonempty. -/
def parse_architecture_from_stderr (text : String) : Option String :=
  (rustLines text).findSome? (fun line =>
    if strContains line "is architecture:" then
      match (strSplitOn line "is architecture:")[1]? with
      | some part =>
        let arch := strTrim part
        if strEq arch "" then none else some arch
      | none => none
    else none)

/-- scanner.rs lines 178-212, `extract_single_architecture`: textual
extraction from the chosen stream, else the fallback `lipo -archs` output,
trimmed; a slice from this path never has a size. -/
def extract_single_architecture (fallback : Option CmdOutput) (text : String) :
    Option (List ArchInfo) :=
  match parse_architecture_from_stderr text with
  | some arch => some [{ cpu_type := arch, size_bytes := none }]
  | none =>
    match fallback with
    | none => none
    | some fb =>
      if !fb.success then none
      else
        let arch_name := strTrim fb.stdout
        if strEq arch_name "" then none
        else some [{ cpu_type := arch_name, size_bytes := none }]

/-- Does the combined output carry one of the two non-fat marker phrases
(scanner.rs lines 160-164)? -/
def nonFatMarker (out : CmdOutput) : Bool :=
  strContains out.stdout "is not a fat file" || strContains out.stdout "Non-fat file" ||
  strContains out.stderr "is not a fat file" || strContains out.stderr "Non-fat file"

/-- scanner.rs lines 148-176, `extract_architectures`: on a non-fat marker,
parse the single architecture from stdout when it is nonempty, else from
stderr; otherwise a failed exit yields nothing and a successful one is fed
to the fat-report parser. -/
def extract_architectures (primary : Option CmdOutput) (fallback : Option CmdOutput) :
    Option (List ArchInfo) :=
  match primary with
  | none => none
  | some out =>
    if nonFatMarker out then
      extract_single_architecture fallback
        (if strEq out.stdout "" then out.stderr else out.stdout)
    else if !out.success then none
    else parse_lipo_output out.stdout

/-! ## Scan pipeline (scanner.rs lines 51-133)

Directory enumeration and `analyze_app`'s filesystem/lipo work are IO; a
`Candidate` records, for one flattened `read_dir` entry, the data those IO
steps would return.  `analysis` is what `analyze_app`'s architecture
extraction would produce (`none` models any of its `?` failures: missing
`Contents/MacOS`, no executable, failed extraction). -/

/-- Architecture-extraction result for one bundle, before `AppInfo`
construction (scanner.rs lines 92-124). -/
structure AnalyzedBundle where
  name : String
  path : String
  binary_path : String
  architectures : List ArchInfo
deriving DecidableEq

/-- One flattened directory entry, with the outcomes of its IO probes. -/
structure Candidate where
  ftype_ok : Bool
  is_dir : Bool
  ext_is_app : Bool
  stem : String
  analysis : Option AnalyzedBundle
deriving DecidableEq

/-- scanner.rs lines 91-133, `analyze_app`, as a function of the candidate's
recorded IO outcomes: the pure contribution visible in the source is the
`AppInfo` construction with `selected := false` (lines 126-132). -/
def analyze_app (c : Candidate) : Option AppInfo :=
  c.analysis.map (fun b =>
    { name := b.name, path := b.path, binary_path := b.binary_path,
      architectures := b.architectures, selected := false })

/-- Guard of scanner.rs lines 63-67: `file_type()` is `Ok`, the entry is a
directory, and its extension is `app`. -/
def scanGate (c : Candidate) : Bool := c.ftype_ok && c.is_dir && c.ext_is_app

/-- Observable events of one scan run: a progress-callback invocation, or an
architecture-extraction attempt for the candidate at an enumeration index. -/
inductive ScanEvent where
  | progress (completed : Nat) (total : Nat) (name : String)
  | extract (index : Nat)
deriving DecidableEq

/-- scanner.rs lines 62-83: walk the entries from index `i`, collecting kept
apps (in enumeration order) and the event trace; for a gated candidate the
`(index+1, total)` progress callback fires before extraction is attempted. -/
def scanAux (total : Nat) : Nat → List Candidate → List AppInfo × List ScanEvent
  | _, [] => ([], [])
  | i, c :: rest =>
    let tail := scanAux total (i + 1) rest
    if scanGate c then
      let evs := ScanEvent.progress (i + 1) total c.stem :: ScanEvent.extract i :: tail.2
      match analyze_app c with
      | some app => (if app.has_arm64 then app :: tail.1 else tail.1, evs)
      | none => (tail.1, evs)
    else tail

/-- Apps kept by the loop of scanner.rs lines 62-83, before the final sort. -/
def scan_collected (cs : List Candidate) : List AppInfo := (scanAux cs.length 0 cs).1

/-- Event trace of one scan run (`total` is `entries.len()`, line 60). -/
def scan_events (cs : List Candidate) : List ScanEvent := (scanAux cs.length 0 cs).2

/-- scanner.rs lines 51-89, `scan_applications_with_progress`: keep the
arm64-capable analyzed bundles and sort them by name (line 87). -/
def scan_applications (cs : List Candidate) : List AppInfo :=
  List.insertionSort nameRel (scan_collected cs)

/-! ## Trim worker (main.rs lines 811-868)

The two `sudo` subprocesses are IO; a `StripOutcome` records, for one
entry, whether `Command::spawn` returned `Ok`, whether `child.wait()`
returned `Ok`, and whether the exit status was success.  The worker body
becomes an event trace over the captured entry list and an oracle giving
each entry's strip outcome. -/

/-- Outcome of one privileged `lipo -remove` invocation. -/
structure StripOutcome where
  spawn_ok : Bool
  wait_ok : Bool
  exit_success : Bool
deriving DecidableEq

/-- The condition of main.rs lines 838-848 guarding the `chown`: spawn `Ok`,
wait `Ok`, and a successful exit status. -/
def stripSucceeded (o : StripOutcome) : Bool := o.spawn_ok && o.wait_ok && o.exit_success

/-- Observable events of one trim run, tagged with the entry's position in
the captured list: a progress write, a strip invocation against the entry's
executable path, or an ownership-restoring `chown` against that path. -/
inductive TrimEvent where
  | progress (completed : Nat) (total : Nat) (name : String)
  | strip (index : Nat) (binary_path : String)
  | chown (index : Nat) (binary_path : String)
deriving DecidableEq

/-- main.rs lines 813-860: for each captured entry in order, publish
progress, attempt the strip, and run the chown exactly when the strip
succeeded; any failure silently advances to the next entry. -/
def trimAux (oracle : Nat → StripOutcome) (total : Nat) : Nat → List AppInfo → List TrimEvent
  | _, [] => []
  | i, app :: rest =>
    TrimEvent.progress (i + 1) total app.name ::
    TrimEvent.strip i app.binary_path ::
    ((if stripSucceeded (oracle i) then [TrimEvent.chown i app.binary_path] else []) ++
      trimAux oracle total (i + 1) rest)

/-- Event trace of one trim run over the captured selected-and-eligible
entries (`total` is `apps_to_trim.len()`, main.rs line 802). -/
def trim_events (apps_to_trim : List AppInfo) (oracle : Nat → StripOutcome) : List TrimEvent :=
  trimAux oracle apps_to_trim.length 0 apps_to_trim

/-! ## Control loop and key handling (main.rs lines 26-101, 120-195, 651-897) -/

/-- main.rs lines 26-32. -/
inductive AppState where
  | Loading
  | Ready
  | PopupNoSelection
  | PopupPasswordInput
  | Trimming
deriving DecidableEq

/-- The key inputs the handler distinguishes (crossterm key codes). -/
inductive Key where
  | enter
  | esc
  | backspace
  | up
  | down
  | ctrlc
  | char (c : Char)
deriving DecidableEq

/-- The `App` fields the engine logic reads or writes.  The shared
progress/result cells are represented by their delivered contents in the
step relation; `trim_captured` and `trim_password` record what
`execute_trim` hands the worker thread. -/
structure App where
  running : Bool
  apps : List AppInfo
  selected_index : Nat
  state : AppState
  password_input : String
  show_non_toggleable : Bool
  sort_mode : SortMode
  trim_captured : List AppInfo
  trim_password : String
deriving DecidableEq

/-- Model of Rust `String::push`. -/
def strPush (s : String) (c : Char) : String := ⟨s.data ++ [c]⟩

/-- Model of Rust `String::pop`'s effect on the string. -/
def strPop (s : String) : String := ⟨s.data.dropLast⟩

/-- Model of Rust `str::is_empty`. -/
def strIsEmpty (s : String) : Bool := s.data.isEmpty

/-- The selected-and-eligible entries (the filter of main.rs lines 776-780
and 791-796). -/
def selectedEligible (apps : List AppInfo) : List AppInfo :=
  apps.filter (fun a => a.selected && a.has_x86_64)

/-- Index of the first prunable entry, with a default when none exists
(the search loops of main.rs lines 132-137, 166-173, 880-887). -/
def firstPrunable (apps : List AppInfo) (dflt : Nat) : Nat :=
  match apps.findIdx? (fun a => a.has_x86_64) with
  | some i => i
  | none => dflt

/-- main.rs lines 704-726, `App::move_down`: next visible index, wrapping. -/
def move_down (s : App) : App :=
  if s.apps.isEmpty then s
  else
    match (List.range' 1 (s.apps.length - 1)).findSome? (fun offset =>
      let next := (s.selected_index + offset) % s.apps.length
      match s.apps[next]? with
      | some app => if s.show_non_toggleable || app.has_x86_64 then some next else none
      | none => none) with
    | some j => { s with selected_index := j }
    | none => s

/-- main.rs lines 728-750, `App::move_up`: previous visible index, wrapping. -/
def move_up (s : App) : App :=
  if s.apps.isEmpty then s
  else
    match (List.range' 1 (s.apps.length - 1)).findSome? (fun offset =>
      let prev := (s.selected_index + s.apps.length - offset) % s.apps.length
      match s.apps[prev]? with
      | some app => if s.show_non_toggleable || app.has_x86_64 then some prev else none
      | none => none) with
    | some j => { s with selected_index := j }
    | none => s

/-- main.rs lines 875-888, `App::toggle_visibility`. -/
def toggle_visibility (s : App) : App :=
  let showAll := !s.show_non_toggleable
  { s with
    show_non_toggleable := showAll,
    selected_index := if showAll then 0 else firstPrunable s.apps 0 }

/-- main.rs lines 890-897, `App::toggle_sort`. -/
def toggle_sort (s : App) : App :=
  let mode := match s.sort_mode with
    | SortMode.Size => SortMode.Alphabetical
    | SortMode.Alphabetical => SortMode.Size
  { s with sort_mode := mode, apps := sort_apps mode s.apps, selected_index := 0 }

/-- main.rs lines 775-788, `App::start_trim`: the confirmation gate. -/
def start_trim (s : App) : App :=
  if (selectedEligible s.apps).length = 0 then
    { s with state := AppState.PopupNoSelection }
  else
    { s with password_input := "", state := AppState.PopupPasswordInput }

/-- main.rs lines 790-869, `App::execute_trim`: capture the selected
eligible entries and the credential for the worker, clear the input, enter
`Trimming`. -/
def execute_trim (s : App) : App :=
  { s with
    trim_captured := selectedEligible s.apps,
    trim_password := s.password_input,
    password_input := "",
    state := AppState.Trimming }

/-- main.rs lines 664-675: the `Ready`-state key handling. -/
def on_key_ready (s : App) (k : Key) : App :=
  match k with
  | Key.esc => { s with running := false }
  | Key.ctrlc => { s with running := false }
  | Key.down => move_down s
  | Key.up => move_up s
  | Key.enter => start_trim s
  | Key.backspace => s
  | Key.char c =>
    if c = 'q' then { s with running := false }
    else if c = 'j' then move_down s
    else if c = 'k' then move_up s
    else if c = ' ' then { s with apps := toggle_selected s.apps s.selected_index }
    else if c = 'a' then { s with apps := toggle_select_all s.apps }
    else if c = 'h' then toggle_visibility s
    else if c = 's' then toggle_sort s
    else s

/-- main.rs lines 676-681: acknowledging the no-selection popup. -/
def on_key_popup (s : App) (k : Key) : App :=
  match k with
  | Key.enter => { s with state := AppState.Ready }
  | Key.esc => { s with state := AppState.Ready }
  | _ => s

/-- main.rs lines 682-699: the password-input popup. -/
def on_key_password (s : App) (k : Key) : App :=
  match k with
  | Key.char c => { s with password_input := strPush s.password_input c }
  | Key.backspace => { s with password_input := strPop s.password_input }
  | Key.enter => if !strIsEmpty s.password_input then execute_trim s else s
  | Key.esc => { s with password_input := "", state := AppState.Ready }
  | _ => s

/-- main.rs lines 662-702, `App::on_key_event`. -/
def on_key_event (s : App) (k : Key) : App :=
  match s.state with
  | AppState.Ready => on_key_ready s k
  | AppState.PopupNoSelection => on_key_popup s k
  | AppState.PopupPasswordInput => on_key_password s k
  | AppState.Loading => s
  | AppState.Trimming => s

/-- Scan delivery (main.rs lines 126-139): replace the collection
wholesale, apply the active sort, select the first prunable entry
(`selected_index` is untouched when none is prunable). -/
def deliver_scan (s : App) (apps : List AppInfo) : App :=
  let sorted := sort_apps s.sort_mode apps
  { s with
    apps := sorted,
    selected_index := firstPrunable sorted s.selected_index,
    state := AppState.Ready }

/-- Trim-result delivery (main.rs lines 151-183): replace the collection
wholesale, reset the cursor (to the first prunable entry unless all entries
are shown), return to `Ready`. -/
def deliver_trim (s : App) (apps : List AppInfo) : App :=
  let sorted := sort_apps s.sort_mode apps
  { s with
    apps := sorted,
    selected_index := if s.show_non_toggleable then 0 else firstPrunable sorted 0,
    state := AppState.Ready }

/-- One transition of the control loop: a key event, a scan-result
delivery while loading, or a trim-result delivery (the post-trim rescan)
while trimming.  Delivered collections are scan outputs. -/
inductive Step : App → App → Prop
  | key (s : App) (k : Key) : Step s (on_key_event s k)
  | scanDeliver (s : App) (cs : List Candidate) (h : s.state = AppState.Loading) :
      Step s (deliver_scan s (scan_applications cs))
  | trimDeliver (s : App) (cs : List Candidate) (h : s.state = AppState.Trimming) :
      Step s (deliver_trim s (scan_applications cs))

/-- The state `App::run` starts polling with (main.rs lines 82-103). -/
def initialApp : App :=
  { running := true, apps := [], selected_index := 0, state := AppState.Loading,
    password_input := "", show_non_toggleable := false, sort_mode := SortMode.Size,
    trim_captured := [], trim_password := "" }

/-- States the control loop can reach. -/
inductive ReachableApp : App → Prop
  | init : ReachableApp initialApp
  | step (s s' : App) : ReachableApp s → Step s s' → ReachableApp s'

/-- Entry collections reachable through the scan, selection and trim
operations (the trim worker itself never writes `selected`; its rescan is
the `scan` constructor). -/
inductive ReachableApps : List AppInfo → Prop
  | scan (cs : List Candidate) : ReachableApps (scan_applications cs)
  | toggle_one (l : List AppInfo) (i : Nat) : ReachableApps l → ReachableApps (toggle_selected l i)
  | toggle_all (l : List AppInfo) : ReachableApps l → ReachableApps (toggle_select_all l)
  | sorted (l : List AppInfo) (m : SortMode) : ReachableApps l → ReachableApps (sort_apps m l)

/-! ## Well-formed fat-report blocks (the §4.2 grammar) -/

/-- One `architecture`/`size` block of `lipo -detailed_info` output: the
architecture line, the detail lines before the size line, the size token
with its numeric value (or `none` for a block carrying no size line), and
the detail lines after it. -/
structure FatBlock where
  name : String
  mid : List String
  sizeTok : Option (String × Nat)
  post : List String

/-- The block's lines. -/
def FatBlock.render (b : FatBlock) : List String :=
  ("architecture " ++ b.name) ::
    (b.mid ++
      match b.sizeTok with
      | some st => ("size " ++ st.1) :: b.post
      | none => b.post)

/-- The slice the block describes. -/
def FatBlock.slice (b : FatBlock) : ArchInfo :=
  { cpu_type := b.name, size_bytes := b.sizeTok.map (fun st => st.2) }

/-- Well-formedness (decidable, so witnesses evaluate it): the architecture
line parses back to the block's name; detail lines are neither architecture
nor size lines; a present size line sits within the nine-line lookahead
window and parses to the recorded value; an absent one means the window
(which then only reaches the block's own lines, as they number at least
nine) holds no parseable size line. -/
def FatBlock.wf (b : FatBlock) : Bool :=
  decide (archNameOfLine ("architecture " ++ b.name) = some b.name) &&
  b.mid.all (fun l => decide (archNameOfLine l = none) && decide (sizeOfLine l = none)) &&
  b.post.all (fun l => decide (archNameOfLine l = none)) &&
  (match b.sizeTok with
   | some st =>
      decide (b.mid.length ≤ 8) &&
      decide (archNameOfLine ("size " ++ st.1) = none) &&
      decide (sizeOfLine ("size " ++ st.1) = some st.2)
   | none =>
      b.post.all (fun l => decide (sizeOfLine l = none)) &&
      decide (9 ≤ b.mid.length + b.post.length))

/-- Progress-callback arguments, in trace order. -/
def progressPairs (evs : List ScanEvent) : List (Nat × Nat) :=
  evs.filterMap (fun e =>
    match e with
    | ScanEvent.progress c t _ => some (c, t)
    | _ => none)

/-! ## Concrete data for counterexamples and witnesses -/

/-- A removable slice with a known size (from the repository's own test). -/
def sliceX86 : ArchInfo := { cpu_type := "x86_64", size_bytes := some 9228032 }

/-- A removable slice whose size is unknown (a fat report without a size
line, as in the repository's `test_parse_lipo_output_fat_binary`). -/
def sliceX86NoSize : ArchInfo := { cpu_type := "x86_64", size_bytes := none }

/-- A required-architecture slice. -/
def sliceArm : ArchInfo := { cpu_type := "arm64", size_bytes := some 8804432 }

/-- An eligible, selected entry. -/
def appAlpha : AppInfo :=
  { name := "Alpha", path := "/Applications/Alpha.app",
    binary_path := "/Applications/Alpha.app/Contents/MacOS/Alpha",
    architectures := [sliceX86, sliceArm], selected := true }

/-- An eligible, unselected entry. -/
def appBravo : AppInfo :=
  { name := "Bravo", path := "/Applications/Bravo.app",
    binary_path := "/Applications/Bravo.app/Contents/MacOS/Bravo",
    architectures := [sliceX86, sliceArm], selected := false }

/-- An entry with a removable slice of unknown size and a late name. -/
def appZed : AppInfo :=
  { name := "Zed", path := "/Applications/Zed.app",
    binary_path := "/Applications/Zed.app/Contents/MacOS/Zed",
    architectures := [sliceX86NoSize, sliceArm], selected := false }

/-- An entry with no removable slice and an early name. -/
def appBeta : AppInfo :=
  { name := "Beta", path := "/Applications/Beta.app",
    binary_path := "/Applications/Beta.app/Contents/MacOS/Beta",
    architectures := [sliceArm], selected := false }

/-- A descriptor outcome carrying the non-fat marker but no parseable
architecture, with no usable fallback. -/
def c5MarkerOnly : CmdOutput :=
  { success := true, stdout := "", stderr := "input file /Applications/X is not a fat file" }

/-- A descriptor outcome matching the repository's non-fat test data. -/
def c5NonFat : CmdOutput :=
  { success := true, stdout := "",
    stderr := "Non-fat file: /Applications/Dia is architecture: arm64" }

/-- The preamble lines of the repository's `test_parse_lipo_output` input. -/
def lipoHeader : List String :=
  ["Fat header in: /Applications/NotchNook.app/Contents/MacOS/NotchNook",
   "fat_magic 0xcafebabe",
   "nfat_arch 2"]

/-- The x86_64 block of the repository's `test_parse_lipo_output` input. -/
def blockX86 : FatBlock :=
  { name := "x86_64",
    mid := ["    cputype CPU_TYPE_X86_64", "    cpusubtype CPU_SUBTYPE_X86_64_ALL",
            "    capabilities 0x0", "    offset 16384"],
    sizeTok := some ("9228032", 9228032),
    post := ["    align 2^14 (16384)"] }

/-- The arm64 block of the repository's `test_parse_lipo_output` input. -/
def blockArm : FatBlock :=
  { name := "arm64",
    mid := ["    cputype CPU_TYPE_ARM64", "    cpusubtype CPU_SUBTYPE_ARM64_ALL",
            "    capabilities 0x0", "    offset 9256960"],
    sizeTok := some ("8804432", 8804432),
    post := ["    align 2^14 (16384)"] }

/-- A strip oracle whose every invocation fails at the exit status. -/
def oracleFail : Nat → StripOutcome := fun _ => { spawn_ok := true, wait_ok := true, exit_success := false }

/-- A directory entry that is a regular file, not a bundle. -/
def candFile : Candidate :=
  { ftype_ok := true, is_dir := false, ext_is_app := false, stem := "README", analysis := none }

/-- A bundle candidate whose analysis yields an eligible universal binary. -/
def candAlpha : Candidate :=
  { ftype_ok := true, is_dir := true, ext_is_app := true, stem := "Alpha",
    analysis := some { name := "Alpha", path := "/Applications/Alpha.app",
                       binary_path := "/Applications/Alpha.app/Contents/MacOS/Alpha",
                       architectures := [sliceX86, sliceArm] } }

/-- A bundle candidate whose binary has no arm64 slice (dropped by the
scan). -/
def candIntel : Candidate :=
  { ftype_ok := true, is_dir := true, ext_is_app := true, stem := "Intel",
    analysis := some { name := "Intel", path := "/Applications/Intel.app",
                       binary_path := "/Applications/Intel.app/Contents/MacOS/Intel",
                       architectures := [sliceX86] } }

/-- A bundle candidate whose analysis fails. -/
def candBroken : Candidate :=
  { ftype_ok := true, is_dir := true, ext_is_app := true, stem := "Broken", analysis := none }

/-! ## Helper lemmas: the lexicographic string order -/

/-- The strict order is asymmetric. -/
theorem strLtL_asymm : ∀ x y : List Char, strLtL x y = true → strLtL y x = false := by
  intro x
  induction x with
  | nil =>
    intro y h
    cases y with
    | nil => simp [strLtL] at h
    | cons b bs => simp [strLtL]
  | cons a as ih =>
    intro y h
    cases y with
    | nil => simp [strLtL] at h
    | cons b bs =>
      simp only [strLtL] at h ⊢
      by_cases h1 : a.toNat < b.toNat
      · have h2 : ¬ b.toNat < a.toNat := by omega
        simp [h1, h2]
      · by_cases h2 : b.toNat < a.toNat
        · simp [h1, h2] at h
        · simp [h1, h2] at h ⊢
          exact ih bs h

/-- Transitivity of the reflexive closure (`¬ lt` in the other direction). -/
theorem strLtL_le_trans :
    ∀ x y z : List Char, strLtL y x = false → strLtL z y = false → strLtL z x = false := by
  intro x
  induction x with
  | nil =>
    intro y z h1 h2
    cases z with
    | nil => rfl
    | cons c cs => rfl
  | cons a as ih =>
    intro y z h1 h2
    cases y with
    | nil => simp [strLtL] at h1
    | cons b bs =>
      cases z with
      | nil => simp [strLtL] at h2
      | cons c cs =>
        simp only [strLtL] at h1 h2 ⊢
        by_cases hba : b.toNat < a.toNat
        · simp [hba] at h1
        · by_cases hcb : c.toNat < b.toNat
          · simp [hcb] at h2
          · have hca : ¬ c.toNat < a.toNat := by omega
            by_cases hac : a.toNat < c.toNat
            · simp [hca, hac]
            · have hab : ¬ a.toNat < b.toNat := by omega
              have hbc : ¬ b.toNat < c.toNat := by omega
              simp [hba, hab] at h1
              simp [hcb, hbc] at h2
              simp [hca, hac]
              exact ih bs cs h1 h2

/-- String-level asymmetry. -/
theorem strLt_asymm (s t : String) : strLt s t = true → strLt t s = false :=
  strLtL_asymm s.data t.data

/-- String-level transitivity of the reflexive closure. -/
theorem strLt_le_trans (s t u : String) :
    strLt t s = false → strLt u t = false → strLt u s = false :=
  strLtL_le_trans s.data t.data u.data

/-- When `cmpStr` answers `gt`. -/
theorem cmpStr_gt_iff (s t : String) : cmpStr s t = Ordering.gt ↔ strLt t s = true := by
  unfold cmpStr
  cases h1 : strLt s t
  · cases h2 : strLt t s
    · simp [h1, h2]
    · simp [h1, h2]
  · simp [h1, strLt_asymm s t h1]

/-- When `cmpNat` answers `gt`. -/
theorem cmpNat_gt_iff (a b : Nat) : cmpNat a b = Ordering.gt ↔ b < a := by
  unfold cmpNat
  by_cases h1 : a < b
  · simp only [h1, if_true]
    constructor
    · intro h
      exact absurd h (by simp)
    · intro h
      exact absurd h (Nat.lt_asymm h1)
  · by_cases h2 : b < a
    · simp [h1, h2]
    · simp only [h1, h2, if_false]
      constructor
      · intro h
        exact absurd h (by simp)
      · intro h
        exact h.elim

/-- Totality of the name relation. -/
theorem nameRel_total : ∀ a b : AppInfo, nameRel a b ∨ nameRel b a := by
  intro a b
  simp only [nameRel, ne_eq, cmpStr_gt_iff, Bool.not_eq_true]
  cases h : strLt b.name a.name
  · exact Or.inl rfl
  · exact Or.inr (strLt_asymm _ _ h)

/-- Transitivity of the name relation. -/
theorem nameRel_trans : ∀ a b c : AppInfo, nameRel a b → nameRel b c → nameRel a c := by
  intro a b c hab hbc
  simp only [nameRel, ne_eq, cmpStr_gt_iff, Bool.not_eq_true] at hab hbc ⊢
  exact strLt_le_trans _ _ _ hab hbc

/-- Totality of the size relation. -/
theorem sizeRel_total : ∀ a b : AppInfo, sizeRel a b ∨ sizeRel b a := by
  intro a b
  unfold sizeRel sizeCmp
  rcases ha : a.x86_64_size with _ | sa <;> rcases hb : b.x86_64_size with _ | sb <;>
    simp only [ha, hb, ne_eq, cmpStr_gt_iff, cmpNat_gt_iff, Bool.not_eq_true]
  · cases h : strLt b.name a.name
    · exact Or.inl (by simp [h])
    · exact Or.inr (by simp [strLt_asymm _ _ h])
  · exact Or.inr (by simp)
  · exact Or.inl (by simp)
  · omega

/-- Transitivity of the size relation. -/
theorem sizeRel_trans : ∀ a b c : AppInfo, sizeRel a b → sizeRel b c → sizeRel a c := by
  intro a b c hab hbc
  unfold sizeRel sizeCmp at hab hbc ⊢
  rcases ha : a.x86_64_size with _ | sa <;> rcases hb : b.x86_64_size with _ | sb <;>
    rcases hc : c.x86_64_size with _ | sc <;>
    simp only [ha, hb, hc] at hab hbc ⊢
  · simp only [ne_eq, cmpStr_gt_iff, Bool.not_eq_true] at hab hbc ⊢
    exact strLt_le_trans _ _ _ hab hbc
  · exact hbc
  · exact absurd rfl hab
  · exact hab
  · exact hab
  · exact absurd rfl hbc
  · simp
  · simp only [ne_eq, cmpNat_gt_iff, Bool.not_eq_true] at hab hbc ⊢
    omega

/-! ## Helper lemmas: toggle-all -/

/-- Overwriting `selected` does not change eligibility. -/
theorem has_x86_64_set (a : AppInfo) (b : Bool) :
    AppInfo.has_x86_64 { a with selected := b } = a.has_x86_64 := rfl

/-- `toggle_select_all` as a plain map. -/
theorem toggle_select_all_eq (l : List AppInfo) :
    toggle_select_all l =
      l.map (fun a => if a.has_x86_64 then { a with selected := !allEligibleSelected l } else a) :=
  rfl

/-- Prepending an ineligible entry does not change the all-selected test. -/
theorem allEligibleSelected_cons_false (a : AppInfo) (l : List AppInfo)
    (h : a.has_x86_64 = false) :
    allEligibleSelected (a :: l) = allEligibleSelected l := by
  simp [allEligibleSelected, List.filter_cons, h]

/-- Prepending an eligible entry conjoins its flag. -/
theorem allEligibleSelected_cons_true (a : AppInfo) (l : List AppInfo)
    (h : a.has_x86_64 = true) :
    allEligibleSelected (a :: l) = (a.selected && allEligibleSelected l) := by
  simp [allEligibleSelected, List.filter_cons, h]

/-- After every eligible entry's flag is overwritten with `b`, the
all-eligible-selected test answers `b` unless no entry is eligible. -/
theorem allEligibleSelected_map_set (l : List AppInfo) (b : Bool) :
    allEligibleSelected (l.map (fun a => if a.has_x86_64 then { a with selected := b } else a)) =
      ((l.filter (fun a => a.has_x86_64)).isEmpty || b) := by
  induction l with
  | nil => simp [allEligibleSelected]
  | cons a l ih =>
    cases h : a.has_x86_64
    · have ha : (if a.has_x86_64 then { a with selected := b } else a) = a := by simp [h]
      rw [List.map_cons, ha, allEligibleSelected_cons_false a _ h, ih, List.filter_cons]
      simp [h]
    · have ha : (if a.has_x86_64 then { a with selected := b } else a) =
          { a with selected := b } := by simp [h]
      rw [List.map_cons, ha,
        allEligibleSelected_cons_true { a with selected := b } _ (by rw [has_x86_64_set]; exact h),
        ih, List.filter_cons]
      simp only [h, if_true]
      cases b <;> simp

/-- Overwriting twice keeps only the second write. -/
theorem map_set_set (l : List AppInfo) (b c : Bool) :
    (l.map (fun a => if a.has_x86_64 then { a with selected := b } else a)).map
        (fun a => if a.has_x86_64 then { a with selected := c } else a) =
      l.map (fun a => if a.has_x86_64 then { a with selected := c } else a) := by
  rw [List.map_map]
  refine List.map_congr_left ?_
  intro a _
  cases h : a.has_x86_64
  · simp [Function.comp, h]
  · simp [Function.comp, h, has_x86_64_set]

/-- Entries without the removable architecture are untouched by the
overwrite map. -/
theorem map_set_id (l : List AppInfo) (b : Bool)
    (h : ∀ a ∈ l, a.has_x86_64 = false) :
    l.map (fun a => if a.has_x86_64 then { a with selected := b } else a) = l := by
  have : ∀ a ∈ l, (if a.has_x86_64 then { a with selected := b } else a) = a := by
    intro a ha
    simp [h a ha]
  rw [List.map_congr_left this]
  exact List.map_id l

/-! ## C1: double application of toggle-all -/

/-- C1 (corrected): applying `toggle_select_all` twice does not in general
restore each eligible entry's own flag; it overwrites every eligible
entry's flag with the initial value of "are all eligible entries
selected".  Consequently the double application is the identity exactly
when the eligible entries' initial selections are uniform (in particular
when they were all selected, or all unselected, or none is eligible). -/
theorem C1_toggle_all_double (l : List AppInfo) :
    toggle_select_all (toggle_select_all l) =
        l.map (fun a => if a.has_x86_64 then { a with selected := allEligibleSelected l } else a) ∧
    ((∀ a ∈ l, ∀ b ∈ l, a.has_x86_64 = true → b.has_x86_64 = true → a.selected = b.selected) →
      toggle_select_all (toggle_select_all l) = l) := by
  have hmain : toggle_select_all (toggle_select_all l) =
      l.map (fun a => if a.has_x86_64 then { a with selected := allEligibleSelected l } else a) := by
    rw [toggle_select_all_eq l, toggle_select_all_eq, allEligibleSelected_map_set, map_set_set]
    cases he : (l.filter (fun a => a.has_x86_64)).isEmpty
    · simp only [he, Bool.false_or, Bool.not_not]
    · have hall : ∀ a ∈ l, a.has_x86_64 = false := by
        intro a ha
        have hnil : l.filter (fun a => a.has_x86_64) = [] := by
          simpa [List.isEmpty_iff] using he
        by_contra hcon
        have : a ∈ l.filter (fun a => a.has_x86_64) := by
          refine List.mem_filter.mpr ⟨ha, ?_⟩
          simpa using hcon
        rw [hnil] at this
        exact absurd this (List.not_mem_nil a)
      rw [map_set_id _ _ hall, map_set_id _ _ hall]
  refine ⟨hmain, fun hu => ?_⟩
  rw [hmain]
  have : ∀ a ∈ l, (if a.has_x86_64 then { a with selected := allEligibleSelected l } else a) = a := by
    intro a ha
    cases h : a.has_x86_64
    · simp [h]
    · simp only [h, if_true]
      have hsel : allEligibleSelected l = a.selected := by
        cases hv : a.selected
        · cases hall : allEligibleSelected l
          · rfl
          · exfalso
            have hx := List.all_eq_true.mp hall a (List.mem_filter.mpr ⟨ha, by simp [h]⟩)
            rw [hv] at hx
            exact Bool.false_ne_true hx
        · refine List.all_eq_true.mpr ?_
          intro x hx
          rcases List.mem_filter.mp hx with ⟨hxl, hxe⟩
          have hxa := hu x hxl a ha (by simpa using hxe) h
          rw [hxa, hv]
      rw [hsel]
  rw [List.map_congr_left this]
  exact List.map_id l

/-- C1 counterexample: two eligible entries with mixed selection; after a
double toggle-all both flags are `false`, so the first entry's original
`true` is not restored and toggle-all is not its own inverse. -/
theorem C1_counterexample :
    appAlpha.has_x86_64 = true ∧ appBravo.has_x86_64 = true ∧
    appAlpha.selected = true ∧
    toggle_select_all (toggle_select_all [appAlpha, appBravo]) =
      [{ appAlpha with selected := false }, { appBravo with selected := false }] ∧
    toggle_select_all (toggle_select_all [appAlpha, appBravo]) ≠ [appAlpha, appBravo] := by
  refine ⟨rfl, rfl, rfl, by decide, by decide⟩

/-! ## C2: the two sort modes -/

/-- What one size-comparator step guarantees pointwise. -/
theorem sizeRel_imp (a b : AppInfo) (h : sizeRel a b) :
    (∀ sa sb, a.x86_64_size = some sa → b.x86_64_size = some sb → sb ≤ sa) ∧
    (a.x86_64_size = none → b.x86_64_size = none ∧ strLt b.name a.name = false) := by
  unfold sizeRel sizeCmp at h
  rcases ha : a.x86_64_size with _ | sa <;> rcases hb : b.x86_64_size with _ | sb <;>
    simp only [ha, hb] at h
  · refine ⟨?_, fun _ => ⟨rfl, ?_⟩⟩
    · intro sa sb h1 h2
      cases h1
    · simp only [ne_eq, cmpStr_gt_iff, Bool.not_eq_true] at h
      exact h
  · exact absurd rfl h
  · refine ⟨?_, ?_⟩
    · intro sa' sb' h1 h2
      cases h2
    · intro h1
      cases h1
  · refine ⟨?_, ?_⟩
    · intro sa' sb' h1 h2
      injection h1 with e1
      injection h2 with e2
      subst e1
      subst e2
      simp only [ne_eq, cmpNat_gt_iff, Bool.not_eq_true] at h
      omega
    · intro h1
      cases h1

/-- What one name-comparator step guarantees pointwise. -/
theorem nameRel_imp (a b : AppInfo) (h : nameRel a b) : strLt b.name a.name = false := by
  simpa only [nameRel, ne_eq, cmpStr_gt_iff, Bool.not_eq_true] using h

/-- C2 (corrected): sort-by-size is a permutation placing entries with a
known removable-architecture size first in descending size order; every
entry with an unknown removable size or with no removable architecture at
all follows them in one combined group ordered alphabetically (the code
does not distinguish the two size-less kinds, so a no-removable entry need
not be last); alphabetical mode sorts all entries by name. -/
theorem C2_sort_modes (l : List AppInfo) :
    (sort_apps SortMode.Size l).Perm l ∧
    (sort_apps SortMode.Size l).Pairwise (fun a b =>
      (∀ sa sb, a.x86_64_size = some sa → b.x86_64_size = some sb → sb ≤ sa) ∧
      (a.x86_64_size = none → b.x86_64_size = none ∧ strLt b.name a.name = false)) ∧
    (sort_apps SortMode.Alphabetical l).Perm l ∧
    (sort_apps SortMode.Alphabetical l).Pairwise (fun a b => strLt b.name a.name = false) := by
  haveI : IsTotal AppInfo sizeRel := ⟨sizeRel_total⟩
  haveI : IsTrans AppInfo sizeRel := ⟨sizeRel_trans⟩
  haveI : IsTotal AppInfo nameRel := ⟨nameRel_total⟩
  haveI : IsTrans AppInfo nameRel := ⟨nameRel_trans⟩
  refine ⟨List.perm_insertionSort sizeRel l, ?_, List.perm_insertionSort nameRel l, ?_⟩
  · exact List.Pairwise.imp (fun h => sizeRel_imp _ _ h) (List.sorted_insertionSort sizeRel l)
  · exact List.Pairwise.imp (fun h => nameRel_imp _ _ h) (List.sorted_insertionSort nameRel l)

/-- C2 counterexample: `appZed` carries the removable architecture (size
unknown) and `appBeta` does not; sort-by-size puts `appBeta` first, so an
entry with no removable architecture is not placed at the end. -/
theorem C2_counterexample :
    appZed.has_x86_64 = true ∧ appBeta.has_x86_64 = false ∧
    sort_apps SortMode.Size [appZed, appBeta] = [appBeta, appZed] := by
  refine ⟨rfl, rfl, by decide⟩

/-! ## C3: the fat-report parser on well-formed blocks -/

/-- `findSome?` over failing entries is `none`. -/
theorem findSome?_none {α β : Type} (f : α → Option β) (ls : List α)
    (h : ∀ x ∈ ls, f x = none) : ls.findSome? f = none := by
  induction ls with
  | nil => rfl
  | cons x xs ih =>
    simp only [List.findSome?_cons, h x (List.mem_cons_self x xs)]
    exact ih (fun y hy => h y (List.mem_cons_of_mem x hy))

/-- `findSome?` skips a failing block. -/
theorem findSome?_append_none {α β : Type} (f : α → Option β) (l1 l2 : List α)
    (h : ∀ x ∈ l1, f x = none) : (l1 ++ l2).findSome? f = l2.findSome? f := by
  induction l1 with
  | nil => rfl
  | cons x xs ih =>
    rw [List.cons_append]
    simp only [List.findSome?_cons, h x (List.mem_cons_self x xs)]
    exact ih (fun y hy => h y (List.mem_cons_of_mem x hy))

/-- The parser ignores lines that are not architecture lines. -/
theorem parse_skip (ls rest : List String) (h : ∀ l ∈ ls, archNameOfLine l = none) :
    parse_lipo_aux (ls ++ rest) = parse_lipo_aux rest := by
  induction ls with
  | nil => rfl
  | cons x xs ih =>
    rw [List.cons_append]
    simp only [parse_lipo_aux, h x (List.mem_cons_self x xs)]
    exact ih (fun y hy => h y (List.mem_cons_of_mem x hy))

/-- One well-formed block contributes exactly its slice. -/
theorem parse_block (b : FatBlock) (rest : List String) (hwf : b.wf = true) :
    parse_lipo_aux (b.render ++ rest) = b.slice :: parse_lipo_aux rest := by
  rcases hst : b.sizeTok with _ | st
  · simp only [FatBlock.wf, hst, Bool.and_eq_true, decide_eq_true_eq, List.all_eq_true] at hwf
    obtain ⟨⟨⟨harch, hmid⟩, hpost⟩, hpostsz, hlen⟩ := hwf
    have hrender : FatBlock.render b = ("architecture " ++ b.name) :: (b.mid ++ b.post) := by
      simp [FatBlock.render, hst]
    have hslice : FatBlock.slice b = { cpu_type := b.name, size_bytes := none } := by
      simp [FatBlock.slice, hst]
    rw [hrender, hslice, List.cons_append]
    simp only [parse_lipo_aux, harch]
    have hW : (((b.mid ++ b.post) ++ rest).take 9).findSome? sizeOfLine = none := by
      rw [List.take_append_of_le_length (by simp; omega)]
      refine findSome?_none _ _ ?_
      intro x hx
      rcases List.mem_append.mp (List.take_subset 9 _ hx) with hxm | hxp
      · exact (hmid x hxm).2
      · exact hpostsz x hxp
    have hTail : parse_lipo_aux ((b.mid ++ b.post) ++ rest) = parse_lipo_aux rest := by
      refine parse_skip _ _ ?_
      intro x hx
      rcases List.mem_append.mp hx with hxm | hxp
      · exact (hmid x hxm).1
      · exact hpost x hxp
    rw [hW, hTail]
  · simp only [FatBlock.wf, hst, Bool.and_eq_true, decide_eq_true_eq, List.all_eq_true] at hwf
    obtain ⟨⟨⟨harch, hmid⟩, hpost⟩, ⟨hlen, harchsz⟩, hsz⟩ := hwf
    have hrender : FatBlock.render b =
        ("architecture " ++ b.name) :: (b.mid ++ ("size " ++ st.1) :: b.post) := by
      simp [FatBlock.render, hst]
    have hslice : FatBlock.slice b = { cpu_type := b.name, size_bytes := some st.2 } := by
      simp [FatBlock.slice, hst]
    rw [hrender, hslice, List.cons_append]
    simp only [parse_lipo_aux, harch]
    have hW : (((b.mid ++ ("size " ++ st.1) :: b.post) ++ rest).take 9).findSome? sizeOfLine =
        some st.2 := by
      rw [List.append_assoc, List.cons_append, List.take_append_eq_append_take,
        List.take_of_length_le (by omega)]
      obtain ⟨k, hk⟩ : ∃ k, 9 - b.mid.length = k + 1 := ⟨8 - b.mid.length, by omega⟩
      rw [hk, List.take_succ_cons,
        findSome?_append_none _ _ _ (fun x hx => (hmid x hx).2)]
      simp only [List.findSome?_cons, hsz]
    have hTail : parse_lipo_aux ((b.mid ++ ("size " ++ st.1) :: b.post) ++ rest) =
        parse_lipo_aux rest := by
      refine parse_skip _ _ ?_
      intro x hx
      rcases List.mem_append.mp hx with hxm | hxp
      · exact (hmid x hxm).1
      · rcases List.mem_cons.mp hxp with hsl | hxp'
        · rw [hsl]
          exact harchsz
        · exact hpost x hxp'
    rw [hW, hTail]

/-- C3 (confirmed): a fat report made of a non-architecture preamble and N
well-formed blocks parses to exactly N slices in block order; a block whose
lookahead window holds a size line yields that parsed integer, one whose
window holds none yields an unknown size. -/
theorem C3_fat_report_blocks (header : List String) (bs : List FatBlock)
    (hh : ∀ l ∈ header, archNameOfLine l = none)
    (hwf : ∀ b ∈ bs, b.wf = true) (hne : bs ≠ []) :
    parse_lipo_lines (header ++ (bs.map FatBlock.render).flatten) =
      some (bs.map FatBlock.slice) := by
  have hblocks : ∀ (bs' : List FatBlock), (∀ b ∈ bs', b.wf = true) →
      parse_lipo_aux ((bs'.map FatBlock.render).flatten) = bs'.map FatBlock.slice := by
    intro bs'
    induction bs' with
    | nil => intro _; rfl
    | cons b rest ih =>
      intro h
      have hj : (((b :: rest).map FatBlock.render).flatten : List String) =
          FatBlock.render b ++ (rest.map FatBlock.render).flatten := by
        simp
      rw [hj, parse_block b _ (h b (List.mem_cons_self b rest)),
        ih (fun x hx => h x (List.mem_cons_of_mem b hx))]
      simp
  unfold parse_lipo_lines
  rw [parse_skip header _ hh, hblocks bs hwf]
  have hemp : (bs.map FatBlock.slice).isEmpty = false := by
    cases bs with
    | nil => exact absurd rfl hne
    | cons b rest => rfl
  simp [hemp]

/-- C3 witness: the repository's own `test_parse_lipo_output` input, as a
preamble plus two well-formed blocks, parses to its two sized slices. -/
theorem C3_witness :
    parse_lipo_lines (lipoHeader ++ ([blockX86, blockArm].map FatBlock.render).flatten) =
      some [{ cpu_type := "x86_64", size_bytes := some 9228032 },
            { cpu_type := "arm64", size_bytes := some 8804432 }] :=
  C3_fat_report_blocks lipoHeader [blockX86, blockArm] (by decide) (by decide)
    (List.cons_ne_nil _ _)

/-! ## C4: ineligible entries are never selected -/

/-- `analyze_app` constructs entries with `selected := false`
(scanner.rs line 131). -/
theorem analyze_app_unselected (c : Candidate) (app : AppInfo)
    (h : analyze_app c = some app) : app.selected = false := by
  unfold analyze_app at h
  rcases hanal : c.analysis with _ | b
  · rw [hanal] at h
    cases h
  · rw [hanal] at h
    injection h with h'
    rw [← h']

/-- The collected-apps component of one scan step. -/
theorem scanAux_fst_cons (total i : Nat) (c : Candidate) (cs : List Candidate) :
    (scanAux total i (c :: cs)).1 =
      if scanGate c then
        match analyze_app c with
        | some app =>
          if app.has_arm64 then app :: (scanAux total (i + 1) cs).1
          else (scanAux total (i + 1) cs).1
        | none => (scanAux total (i + 1) cs).1
      else (scanAux total (i + 1) cs).1 := by
  rw [scanAux]
  cases hg : scanGate c
  · simp [hg]
  · simp only [hg, if_true]
    rcases han : analyze_app c with _ | app'
    · simp
    · cases app'.has_arm64 <;> simp

/-- The event-trace component of one scan step (independent of the
analysis outcome). -/
theorem scanAux_snd_cons (total i : Nat) (c : Candidate) (cs : List Candidate) :
    (scanAux total i (c :: cs)).2 =
      if scanGate c then
        ScanEvent.progress (i + 1) total c.stem :: ScanEvent.extract i ::
          (scanAux total (i + 1) cs).2
      else (scanAux total (i + 1) cs).2 := by
  rw [scanAux]
  cases hg : scanGate c
  · simp [hg]
  · simp only [hg, if_true]
    rcases han : analyze_app c with _ | app'
    · simp
    · cases app'.has_arm64 <;> simp

/-- Everything the scan loop collects is unselected. -/
theorem scanAux_unselected (total : Nat) :
    ∀ (cs : List Candidate) (i : Nat), ∀ app ∈ (scanAux total i cs).1, app.selected = false := by
  intro cs
  induction cs with
  | nil =>
    intro i app h
    simp [scanAux] at h
  | cons c rest ih =>
    intro i app h
    rw [scanAux_fst_cons] at h
    by_cases hg : scanGate c
    · simp only [hg, if_true] at h
      rcases han : analyze_app c with _ | app'
      · simp only [han] at h
        exact ih (i + 1) app h
      · simp only [han] at h
        by_cases harm : app'.has_arm64
        · rw [if_pos harm] at h
          rcases List.mem_cons.mp h with rfl | h2
          · exact analyze_app_unselected c app han
          · exact ih (i + 1) app h2
        · rw [if_neg harm] at h
          exact ih (i + 1) app h
    · rw [if_neg hg] at h
      exact ih (i + 1) app h

/-- Every entry a scan delivers is unselected. -/
theorem scan_applications_unselected (cs : List Candidate) :
    ∀ app ∈ scan_applications cs, app.selected = false := by
  intro app h
  have h2 : app ∈ scan_collected cs := (List.mem_insertionSort nameRel).mp h
  exact scanAux_unselected cs.length cs 0 app h2

/-- Membership after a `set` comes from the new value or the old list. -/
theorem mem_of_mem_set {x v : AppInfo} :
    ∀ (l : List AppInfo) (i : Nat), x ∈ l.set i v → x = v ∨ x ∈ l := by
  intro l
  induction l with
  | nil =>
    intro i h
    simp at h
  | cons a l ih =>
    intro i h
    cases i with
    | zero =>
      rcases List.mem_cons.mp h with h1 | h2
      · exact Or.inl h1
      · exact Or.inr (List.mem_cons_of_mem a h2)
    | succ n =>
      rcases List.mem_cons.mp h with h1 | h2
      · exact Or.inr (by rw [h1]; exact List.mem_cons_self a l)
      · rcases ih n h2 with h3 | h3
        · exact Or.inl h3
        · exact Or.inr (List.mem_cons_of_mem a h3)

/-- Invariant: in every reachable collection, an entry without the
removable architecture is unselected. -/
theorem reachable_apps_invariant (l : List AppInfo) (h : ReachableApps l) :
    ∀ app ∈ l, app.has_x86_64 = false → app.selected = false := by
  induction h with
  | scan cs =>
    intro app hmem _
    exact scan_applications_unselected cs app hmem
  | toggle_one l i hl ih =>
    intro app hmem hx
    unfold toggle_selected at hmem
    rcases hidx : l[i]? with _ | a0
    · simp only [hidx] at hmem
      exact ih app hmem hx
    · simp only [hidx] at hmem
      by_cases he : a0.has_x86_64
      · rw [if_pos he] at hmem
        rcases mem_of_mem_set l i hmem with rfl | h2
        · rw [has_x86_64_set] at hx
          exact absurd he (by simp [hx])
        · exact ih app h2 hx
      · rw [if_neg he] at hmem
        exact ih app hmem hx
  | toggle_all l hl ih =>
    intro app hmem hx
    rw [toggle_select_all_eq] at hmem
    rcases List.mem_map.mp hmem with ⟨a, hal, hfa⟩
    by_cases he : a.has_x86_64
    · rw [if_pos he] at hfa
      rw [← hfa] at hx
      rw [has_x86_64_set] at hx
      exact absurd he (by simp [hx])
    · rw [if_neg he] at hfa
      rw [← hfa] at hx ⊢
      exact ih a hal hx
  | sorted l m hl ih =>
    intro app hmem hx
    have hl2 : app ∈ l := by
      unfold sort_apps at hmem
      cases m
      · exact (List.mem_insertionSort sizeRel).mp hmem
      · exact (List.mem_insertionSort nameRel).mp hmem
    exact ih app hl2 hx

/-- C4 (confirmed): in every collection reachable through scan, toggle-one,
toggle-all, sort and the post-trim rescan, an entry lacking an x86_64 slice
has `selected = false`; and toggling an index holding such an entry leaves
the collection unchanged whatever the prior state. -/
theorem C4_ineligible_never_selected (l : List AppInfo) (i : Nat) (app : AppInfo) :
    (ReachableApps l → app ∈ l → app.has_x86_64 = false → app.selected = false) ∧
    (l[i]? = some app → app.has_x86_64 = false → toggle_selected l i = l) := by
  constructor
  · intro h hmem hx
    exact reachable_apps_invariant l h app hmem hx
  · intro hidx hx
    unfold toggle_selected
    rw [hidx]
    simp [hx]

/-! ## C10: scans deliver unselected entries and replace wholesale -/

/-- C10 (confirmed): every entry a scan (including the post-trim rescan)
produces is unselected, and both delivery paths replace the collection
wholesale with the sorted scan output, so no selection survives a scan. -/
theorem C10_scan_unselected (cs : List Candidate) (s : App) (app : AppInfo) :
    (app ∈ scan_applications cs → app.selected = false) ∧
    (deliver_scan s (scan_applications cs)).apps = sort_apps s.sort_mode (scan_applications cs) ∧
    (deliver_trim s (scan_applications cs)).apps = sort_apps s.sort_mode (scan_applications cs) ∧
    (app ∈ (deliver_trim s (scan_applications cs)).apps → app.selected = false) := by
  refine ⟨fun h => scan_applications_unselected cs app h, rfl, rfl, fun h => ?_⟩
  have hmem : app ∈ sort_apps s.sort_mode (scan_applications cs) := h
  have h2 : app ∈ scan_applications cs := by
    unfold sort_apps at hmem
    cases hm : s.sort_mode
    · rw [hm] at hmem
      exact (List.mem_insertionSort sizeRel).mp hmem
    · rw [hm] at hmem
      exact (List.mem_insertionSort nameRel).mp hmem
  exact scan_applications_unselected cs app h2

/-! ## C6: the delivered scan result -/

/-- Characterisation of the apps the scan loop keeps. -/
theorem mem_scanAux (total : Nat) :
    ∀ (cs : List Candidate) (i : Nat) (app : AppInfo),
      app ∈ (scanAux total i cs).1 ↔
        ∃ c, c ∈ cs ∧ scanGate c = true ∧ analyze_app c = some app ∧ app.has_arm64 = true := by
  intro cs
  induction cs with
  | nil =>
    intro i app
    simp [scanAux]
  | cons c rest ih =>
    intro i app
    rw [scanAux_fst_cons]
    by_cases hg : scanGate c = true
    case neg =>
      rw [if_neg hg, ih (i + 1) app]
      constructor
      · rintro ⟨c', hc', hrest⟩
        exact ⟨c', List.mem_cons_of_mem c hc', hrest⟩
      · rintro ⟨c', hc', hgate, hrest⟩
        rcases List.mem_cons.mp hc' with rfl | hc'rest
        · exact absurd hgate hg
        · exact ⟨c', hc'rest, hgate, hrest⟩
    case pos =>
      rw [if_pos hg]
      rcases han : analyze_app c with _ | app'
      · simp only []
        rw [ih (i + 1) app]
        constructor
        · rintro ⟨c', hc', hrest⟩
          exact ⟨c', List.mem_cons_of_mem c hc', hrest⟩
        · rintro ⟨c', hc', hgate, hana, harm⟩
          rcases List.mem_cons.mp hc' with rfl | hmem
          · rw [han] at hana
            cases hana
          · exact ⟨c', hmem, hgate, hana, harm⟩
      · simp only []
        by_cases harm : app'.has_arm64
        · rw [if_pos harm, List.mem_cons, ih (i + 1) app]
          constructor
          · rintro (rfl | ⟨c', hc', hrest⟩)
            · exact ⟨c, List.mem_cons_self c rest, hg, han, harm⟩
            · exact ⟨c', List.mem_cons_of_mem c hc', hrest⟩
          · rintro ⟨c', hc', hgate, hana, harm'⟩
            rcases List.mem_cons.mp hc' with rfl | hmem
            · left
              rw [han] at hana
              injection hana with e
              exact e.symm
            · right
              exact ⟨c', hmem, hgate, hana, harm'⟩
        · rw [if_neg harm, ih (i + 1) app]
          constructor
          · rintro ⟨c', hc', hrest⟩
            exact ⟨c', List.mem_cons_of_mem c hc', hrest⟩
          · rintro ⟨c', hc', hgate, hana, harm'⟩
            rcases List.mem_cons.mp hc' with rfl | hmem
            · rw [han] at hana
              injection hana with e
              exact absurd harm' (e ▸ harm)
            · exact ⟨c', hmem, hgate, hana, harm'⟩

/-- C6 (confirmed): the delivered scan result holds exactly the gated
candidates whose analysis succeeded and whose binary carries an arm64
slice, and the result is sorted by name. -/
theorem C6_scan_result (cs : List Candidate) (app : AppInfo) :
    (app ∈ scan_applications cs ↔
      ∃ c, c ∈ cs ∧ scanGate c = true ∧ analyze_app c = some app ∧ app.has_arm64 = true) ∧
    (scan_applications cs).Pairwise (fun a b => strLt b.name a.name = false) := by
  haveI : IsTotal AppInfo nameRel := ⟨nameRel_total⟩
  haveI : IsTrans AppInfo nameRel := ⟨nameRel_trans⟩
  constructor
  · exact (List.mem_insertionSort nameRel).trans (mem_scanAux cs.length cs 0 app)
  · exact List.Pairwise.imp (fun h => nameRel_imp _ _ h)
      (List.sorted_insertionSort nameRel (scan_collected cs))

/-! ## C7: scan progress reporting -/

/-- Every gated candidate gets an extraction attempt in the trace. -/
theorem extract_mem_scanAux (total : Nat) :
    ∀ (cs : List Candidate) (i k : Nat) (c : Candidate), cs[k]? = some c → scanGate c = true →
      ScanEvent.extract (i + k) ∈ (scanAux total i cs).2 := by
  intro cs
  induction cs with
  | nil =>
    intro i k c h _
    simp at h
  | cons c0 rest ih =>
    intro i k c h hg
    rw [scanAux_snd_cons]
    cases k with
    | zero =>
      simp only [List.getElem?_cons_zero] at h
      injection h with e
      subst e
      rw [if_pos hg]
      simp
    | succ n =>
      have h' : rest[n]? = some c := by simpa using h
      have hmem := ih (i + 1) n c h' hg
      have harith : i + (n + 1) = (i + 1) + n := by omega
      rw [harith]
      by_cases hg0 : scanGate c0 = true
      · rw [if_pos hg0]
        exact List.mem_cons_of_mem _ (List.mem_cons_of_mem _ hmem)
      · rw [if_neg hg0]
        exact hmem

/-- Every extraction attempt in the trace is immediately preceded by its
candidate's `(index+1, total)` progress call. -/
theorem extract_preceded (total : Nat) :
    ∀ (cs : List Candidate) (i j idx : Nat),
      (scanAux total i cs).2[j]? = some (ScanEvent.extract idx) →
      0 < j ∧ ∃ nm, (scanAux total i cs).2[j - 1]? = some (ScanEvent.progress (idx + 1) total nm) := by
  intro cs
  induction cs with
  | nil =>
    intro i j idx h
    simp [scanAux] at h
  | cons c rest ih =>
    intro i j idx h
    rw [scanAux_snd_cons] at h ⊢
    by_cases hg : scanGate c = true
    · rw [if_pos hg] at h ⊢
      cases j with
      | zero =>
        simp at h
      | succ j' =>
        cases j' with
        | zero =>
          simp only [List.getElem?_cons_succ, List.getElem?_cons_zero] at h
          injection h with e1
          injection e1 with e2
          subst e2
          exact ⟨by omega, ⟨c.stem, by simp⟩⟩
        | succ j'' =>
          simp only [List.getElem?_cons_succ] at h
          obtain ⟨hpos, nm, hprog⟩ := ih (i + 1) j'' idx h
          obtain ⟨m, rfl⟩ : ∃ m, j'' = m + 1 := ⟨j'' - 1, by omega⟩
          refine ⟨by omega, ⟨nm, ?_⟩⟩
          have harith : m + 1 + 1 + 1 - 1 = m + 1 + 1 := by omega
          rw [harith]
          simp only [List.getElem?_cons_succ]
          simpa using hprog
    · rw [if_neg hg] at h ⊢
      exact ih (i + 1) j idx h

/-- Bounds for every reported progress pair. -/
theorem progressPairs_scanAux_bound (total : Nat) :
    ∀ (cs : List Candidate) (i : Nat), ∀ p ∈ progressPairs (scanAux total i cs).2,
      i + 1 ≤ p.1 ∧ p.1 ≤ i + cs.length ∧ p.2 = total := by
  intro cs
  induction cs with
  | nil =>
    intro i p h
    simp [scanAux, progressPairs] at h
  | cons c rest ih =>
    intro i p h
    rw [scanAux_snd_cons] at h
    by_cases hg : scanGate c = true
    · rw [if_pos hg] at h
      simp only [progressPairs, List.filterMap_cons] at h
      rcases List.mem_cons.mp h with rfl | h2
      · refine ⟨Nat.le_refl _, ?_, rfl⟩
        simp [List.length_cons]
      · have hb := ih (i + 1) p h2
        refine ⟨by omega, ?_, hb.2.2⟩
        have := hb.2.1
        simp only [List.length_cons]
        omega
    · rw [if_neg hg] at h
      have hb := ih (i + 1) p h
      refine ⟨by omega, ?_, hb.2.2⟩
      have := hb.2.1
      simp only [List.length_cons]
      omega

/-- Progress pairs are reported with strictly growing completed counts. -/
theorem progressPairs_scanAux_mono (total : Nat) :
    ∀ (cs : List Candidate) (i : Nat),
      (progressPairs (scanAux total i cs).2).Pairwise (fun p q => p.1 ≤ q.1) := by
  intro cs
  induction cs with
  | nil =>
    intro i
    simp [scanAux, progressPairs]
  | cons c rest ih =>
    intro i
    rw [scanAux_snd_cons]
    by_cases hg : scanGate c = true
    · rw [if_pos hg]
      simp only [progressPairs, List.filterMap_cons]
      refine List.Pairwise.cons ?_ (ih (i + 1))
      intro q hq
      have := progressPairs_scanAux_bound total rest (i + 1) q hq
      simp only []
      omega
    · rw [if_neg hg]
      exact ih (i + 1)

/-- C7 (confirmed): each gated candidate's extraction attempt appears in
the trace and is immediately preceded by its `(index+1, total)` progress
call (so progress advances before extraction, even for candidates later
excluded), and over the whole run the completed counts are monotone and
never exceed the reported total, which is the candidate count. -/
theorem C7_scan_progress (cs : List Candidate) (k j idx : Nat) (c : Candidate) (p : Nat × Nat) :
    (cs[k]? = some c → scanGate c = true → ScanEvent.extract k ∈ scan_events cs) ∧
    ((scan_events cs)[j]? = some (ScanEvent.extract idx) →
      0 < j ∧ ∃ nm, (scan_events cs)[j - 1]? = some (ScanEvent.progress (idx + 1) cs.length nm)) ∧
    (progressPairs (scan_events cs)).Pairwise (fun q r => q.1 ≤ r.1) ∧
    (p ∈ progressPairs (scan_events cs) → p.1 ≤ p.2 ∧ p.2 = cs.length) := by
  refine ⟨?_, ?_, ?_, ?_⟩
  · intro h hg
    have := extract_mem_scanAux cs.length cs 0 k c h hg
    simpa using this
  · intro h
    exact extract_preceded cs.length cs 0 j idx h
  · exact progressPairs_scanAux_mono cs.length cs 0
  · intro h
    have hb := progressPairs_scanAux_bound cs.length cs 0 p h
    exact ⟨by omega, hb.2.2⟩

/-! ## C8: the trim worker -/

/-- Every entry's block events are present, the chown one exactly on strip
success. -/
theorem trimAux_block (oracle : Nat → StripOutcome) (total : Nat) :
    ∀ (apps : List AppInfo) (i k : Nat) (app : AppInfo), apps[k]? = some app →
      TrimEvent.progress (i + k + 1) total app.name ∈ trimAux oracle total i apps ∧
      TrimEvent.strip (i + k) app.binary_path ∈ trimAux oracle total i apps ∧
      (stripSucceeded (oracle (i + k)) = true →
        TrimEvent.chown (i + k) app.binary_path ∈ trimAux oracle total i apps) := by
  intro apps
  induction apps with
  | nil =>
    intro i k app h
    simp at h
  | cons a rest ih =>
    intro i k app h
    cases k with
    | zero =>
      simp only [List.getElem?_cons_zero] at h
      injection h with e
      subst e
      simp only [Nat.add_zero]
      refine ⟨by simp [trimAux], by simp [trimAux], fun hs => ?_⟩
      simp only [trimAux]
      refine List.mem_cons_of_mem _ (List.mem_cons_of_mem _ ?_)
      rw [if_pos hs]
      simp
    | succ n =>
      have h' : rest[n]? = some app := by simpa using h
      obtain ⟨hp, hstr, hch⟩ := ih (i + 1) n app h'
      have hmem : ∀ e, e ∈ trimAux oracle total (i + 1) rest →
          e ∈ trimAux oracle total i (a :: rest) := by
        intro e he
        simp only [trimAux]
        refine List.mem_cons_of_mem _ (List.mem_cons_of_mem _ ?_)
        exact List.mem_append.mpr (Or.inr he)
      refine ⟨?_, ?_, fun hs => ?_⟩
      · have hp' := hmem _ hp
        have harith : (i + 1) + n + 1 = i + (n + 1) + 1 := by omega
        rw [harith] at hp'
        exact hp'
      · have hstr' := hmem _ hstr
        have harith : (i + 1) + n = i + (n + 1) := by omega
        rw [harith] at hstr'
        exact hstr'
      · have harith : i + (n + 1) = (i + 1) + n := by omega
        rw [harith] at hs ⊢
        exact hmem _ (hch hs)

/-- Inversion: a chown event pins down its entry and the strip success. -/
theorem chown_inv (oracle : Nat → StripOutcome) (total : Nat) :
    ∀ (apps : List AppInfo) (i k : Nat) (p : String),
      TrimEvent.chown k p ∈ trimAux oracle total i apps →
      ∃ m a, k = i + m ∧ apps[m]? = some a ∧ p = a.binary_path ∧
        stripSucceeded (oracle k) = true := by
  intro apps
  induction apps with
  | nil =>
    intro i k p h
    simp [trimAux] at h
  | cons a rest ih =>
    intro i k p h
    simp only [trimAux] at h
    rcases List.mem_cons.mp h with h1 | h
    · cases h1
    rcases List.mem_cons.mp h with h2 | h
    · cases h2
    rcases List.mem_append.mp h with h3 | h4
    · by_cases hs : stripSucceeded (oracle i) = true
      · rw [if_pos hs] at h3
        have he := List.mem_singleton.mp h3
        injection he with e1 e2
        subst e1
        exact ⟨0, a, by omega, by simp, e2, hs⟩
      · rw [if_neg hs] at h3
        simp at h3
    · obtain ⟨m, a', hk, hat, hpa, hsucc⟩ := ih (i + 1) k p h4
      exact ⟨m + 1, a', by omega, by simpa using hat, hpa, hsucc⟩

/-- C8 (confirmed): for each captured entry, processed in order, the trace
holds its progress write and its strip invocation against the entry's
executable path, and holds the ownership-restore invocation against that
path exactly when the strip succeeded; a failed strip records nothing and
the worker proceeds to the remaining entries. -/
theorem C8_trim_chown (apps : List AppInfo) (oracle : Nat → StripOutcome) (i : Nat)
    (app : AppInfo) (p : String) :
    (apps[i]? = some app →
      TrimEvent.progress (i + 1) apps.length app.name ∈ trim_events apps oracle ∧
      TrimEvent.strip i app.binary_path ∈ trim_events apps oracle ∧
      (TrimEvent.chown i app.binary_path ∈ trim_events apps oracle ↔
        stripSucceeded (oracle i) = true)) ∧
    (TrimEvent.chown i p ∈ trim_events apps oracle →
      ∃ a, apps[i]? = some a ∧ p = a.binary_path ∧ stripSucceeded (oracle i) = true) := by
  constructor
  · intro h
    obtain ⟨hp, hstr, hch⟩ := trimAux_block oracle apps.length apps 0 i app h
    refine ⟨by simpa using hp, by simpa using hstr, ?_⟩
    constructor
    · intro hmem
      obtain ⟨m, a', hk, hat, hpa, hsucc⟩ :=
        chown_inv oracle apps.length apps 0 i app.binary_path hmem
      exact hsucc
    · intro hs
      have := hch (by simpa using hs)
      simpa using this
  · intro hmem
    obtain ⟨m, a', hk, hat, hpa, hsucc⟩ := chown_inv oracle apps.length apps 0 i p hmem
    have hm : m = i := by omega
    subst hm
    exact ⟨a', hat, hpa, hsucc⟩

/-! ## C5: non-fat extraction -/

/-- C5 (corrected): when the descriptor output carries a non-fat marker the
result is `extract_single_architecture` applied to the stream chosen by
stdout-nonemptiness, and whenever that produces a slice list at all it is
exactly one slice with unknown size, named either from the chosen stream's
`is architecture:` line or, failing that, from the successful fallback
command's trimmed stdout.  (When both extractions fail no slice list is
produced at all — see the counterexample.) -/
theorem C5_nonfat_extraction (out : CmdOutput) (fallback : Option CmdOutput)
    (hm : nonFatMarker out = true) :
    extract_architectures (some out) fallback =
      extract_single_architecture fallback
        (if strEq out.stdout "" then out.stderr else out.stdout) ∧
    (∀ slices, extract_architectures (some out) fallback = some slices →
      ∃ a, slices = [{ cpu_type := a, size_bytes := none }] ∧
        (parse_architecture_from_stderr
            (if strEq out.stdout "" then out.stderr else out.stdout) = some a ∨
         (parse_architecture_from_stderr
            (if strEq out.stdout "" then out.stderr else out.stdout) = none ∧
          ∃ fb, fallback = some fb ∧ fb.success = true ∧ a = strTrim fb.stdout))) := by
  have heq : extract_architectures (some out) fallback =
      extract_single_architecture fallback
        (if strEq out.stdout "" then out.stderr else out.stdout) := by
    simp only [extract_architectures]
    rw [if_pos hm]
  refine ⟨heq, fun slices hs => ?_⟩
  rw [heq] at hs
  unfold extract_single_architecture at hs
  rcases hp : parse_architecture_from_stderr
      (if strEq out.stdout "" then out.stderr else out.stdout) with _ | arch
  · simp only [hp] at hs
    rcases hfb : fallback with _ | fb
    · simp only [hfb] at hs
      cases hs
    · simp only [hfb] at hs
      cases hsucc : fb.success
      · rw [hsucc] at hs
        simp at hs
      · rw [hsucc] at hs
        simp only [Bool.not_true] at hs
        rw [if_neg (by simp)] at hs
        by_cases hne : strEq (strTrim fb.stdout) "" = true
        · rw [if_pos hne] at hs
          cases hs
        · rw [if_neg hne] at hs
          injection hs with e
          exact ⟨strTrim fb.stdout, e.symm, Or.inr ⟨rfl, fb, rfl, hsucc, rfl⟩⟩
  · simp only [hp] at hs
    injection hs with e
    exact ⟨arch, e.symm, Or.inl rfl⟩

/-- C5 counterexample: the marker is present but the chosen stream has no
`is architecture:` line and the fallback fails, so the extractor produces
no slice list at all rather than one unknown-size slice. -/
theorem C5_counterexample :
    nonFatMarker c5MarkerOnly = true ∧
    extract_architectures (some c5MarkerOnly) none = none := by
  exact ⟨by decide, by decide⟩

/-- C5 witness: the repository's non-fat test shape with an empty stdout
selects the stderr text and extracts the single `arm64` slice. -/
theorem C5_witness :
    extract_architectures (some c5NonFat) none =
      extract_single_architecture none
        (if strEq c5NonFat.stdout "" then c5NonFat.stderr else c5NonFat.stdout) ∧
    extract_architectures (some c5NonFat) none =
      some [{ cpu_type := "arm64", size_bytes := none }] :=
  ⟨(C5_nonfat_extraction c5NonFat none (by decide)).1, by decide⟩

/-! ## C9: the trim confirmation and credential gate -/

/-- Cursor moves touch only the cursor. -/
theorem move_down_fields (s : App) :
    (move_down s).state = s.state ∧ (move_down s).apps = s.apps ∧
    (move_down s).password_input = s.password_input := by
  unfold move_down
  split
  · exact ⟨rfl, rfl, rfl⟩
  · split
    · exact ⟨rfl, rfl, rfl⟩
    · exact ⟨rfl, rfl, rfl⟩

/-- Cursor moves touch only the cursor. -/
theorem move_up_fields (s : App) :
    (move_up s).state = s.state ∧ (move_up s).apps = s.apps ∧
    (move_up s).password_input = s.password_input := by
  unfold move_up
  split
  · exact ⟨rfl, rfl, rfl⟩
  · split
    · exact ⟨rfl, rfl, rfl⟩
    · exact ⟨rfl, rfl, rfl⟩

/-- Invariant: the password popup is only ever shown with at least one
selected eligible entry. -/
theorem popup_invariant (s : App) (h : ReachableApp s) :
    s.state = AppState.PopupPasswordInput → 0 < (selectedEligible s.apps).length := by
  induction h with
  | init =>
    intro hst
    exact absurd hst (by decide)
  | step s s' hreach hstep ih =>
    cases hstep with
    | scanDeliver cs h0 =>
      intro hst
      simp [deliver_scan] at hst
    | trimDeliver cs h0 =>
      intro hst
      simp [deliver_trim] at hst
    | key k =>
      obtain ⟨run, apps, selI, st, pwd, showNT, mode, tcap, tpw⟩ := s
      intro h'
      cases st
      case Loading => exact AppState.noConfusion h'
      case Trimming => exact AppState.noConfusion h'
      case PopupNoSelection =>
        cases k <;> exact AppState.noConfusion h'
      case Ready =>
        simp only [on_key_event] at h'
        cases k
        case esc => exact AppState.noConfusion h'
        case ctrlc => exact AppState.noConfusion h'
        case backspace => exact AppState.noConfusion h'
        case up =>
          simp only [on_key_ready] at h'
          rw [(move_up_fields _).1] at h'
          exact AppState.noConfusion h'
        case down =>
          simp only [on_key_ready] at h'
          rw [(move_down_fields _).1] at h'
          exact AppState.noConfusion h'
        case enter =>
          simp only [on_key_ready] at h'
          unfold start_trim at h'
          by_cases hc : (selectedEligible apps).length = 0
          · rw [if_pos hc] at h'
            exact AppState.noConfusion h'
          · simp only [on_key_event, on_key_ready]
            unfold start_trim
            rw [if_neg hc]
            show 0 < (selectedEligible apps).length
            omega
        case char c =>
          simp only [on_key_ready] at h'
          by_cases h1 : c = 'q'
          · rw [if_pos h1] at h'
            exact AppState.noConfusion h'
          · rw [if_neg h1] at h'
            by_cases h2 : c = 'j'
            · rw [if_pos h2, (move_down_fields _).1] at h'
              exact AppState.noConfusion h'
            · rw [if_neg h2] at h'
              by_cases h3 : c = 'k'
              · rw [if_pos h3, (move_up_fields _).1] at h'
                exact AppState.noConfusion h'
              · rw [if_neg h3] at h'
                by_cases h4 : c = ' '
                · rw [if_pos h4] at h'
                  exact AppState.noConfusion h'
                · rw [if_neg h4] at h'
                  by_cases h5 : c = 'a'
                  · rw [if_pos h5] at h'
                    exact AppState.noConfusion h'
                  · rw [if_neg h5] at h'
                    by_cases h6 : c = 'h'
                    · rw [if_pos h6] at h'
                      exact AppState.noConfusion h'
                    · rw [if_neg h6] at h'
                      by_cases h7 : c = 's'
                      · rw [if_pos h7] at h'
                        exact AppState.noConfusion h'
                      · rw [if_neg h7] at h'
                        exact AppState.noConfusion h'
      case PopupPasswordInput =>
        simp only [on_key_event] at h'
        cases k
        case char c => exact ih rfl
        case backspace => exact ih rfl
        case up => exact ih rfl
        case down => exact ih rfl
        case ctrlc => exact ih rfl
        case esc => exact AppState.noConfusion h'
        case enter =>
          simp only [on_key_password] at h'
          cases hem : strIsEmpty pwd
          · have hcond : (!strIsEmpty pwd) = true := by rw [hem]; rfl
            rw [if_pos hcond] at h'
            exact AppState.noConfusion h'
          · simp only [on_key_event, on_key_password]
            rw [if_neg (by rw [hem]; decide)]
            exact ih rfl

/-- Inversion: a key event lands in `Trimming` only from the password
popup, through `execute_trim`, with a nonempty credential. -/
theorem on_key_trim_entry (s : App) (k : Key)
    (h' : (on_key_event s k).state = AppState.Trimming) :
    s.state = AppState.Trimming ∨
    (s.state = AppState.PopupPasswordInput ∧ strIsEmpty s.password_input = false ∧
      on_key_event s k = execute_trim s) := by
  obtain ⟨run, apps, selI, st, pwd, showNT, mode, tcap, tpw⟩ := s
  cases st
  case Loading => exact AppState.noConfusion h'
  case Trimming => exact Or.inl rfl
  case PopupNoSelection =>
    cases k <;> exact AppState.noConfusion h'
  case Ready =>
    simp only [on_key_event] at h'
    cases k
    case esc => exact AppState.noConfusion h'
    case ctrlc => exact AppState.noConfusion h'
    case backspace => exact AppState.noConfusion h'
    case up =>
      simp only [on_key_ready] at h'
      rw [(move_up_fields _).1] at h'
      exact AppState.noConfusion h'
    case down =>
      simp only [on_key_ready] at h'
      rw [(move_down_fields _).1] at h'
      exact AppState.noConfusion h'
    case enter =>
      simp only [on_key_ready] at h'
      unfold start_trim at h'
      by_cases hc : (selectedEligible apps).length = 0
      · rw [if_pos hc] at h'
        exact AppState.noConfusion h'
      · rw [if_neg hc] at h'
        exact AppState.noConfusion h'
    case char c =>
      simp only [on_key_ready] at h'
      by_cases h1 : c = 'q'
      · rw [if_pos h1] at h'
        exact AppState.noConfusion h'
      · rw [if_neg h1] at h'
        by_cases h2 : c = 'j'
        · rw [if_pos h2, (move_down_fields _).1] at h'
          exact AppState.noConfusion h'
        · rw [if_neg h2] at h'
          by_cases h3 : c = 'k'
          · rw [if_pos h3, (move_up_fields _).1] at h'
            exact AppState.noConfusion h'
          · rw [if_neg h3] at h'
            by_cases h4 : c = ' '
            · rw [if_pos h4] at h'
              exact AppState.noConfusion h'
            · rw [if_neg h4] at h'
              by_cases h5 : c = 'a'
              · rw [if_pos h5] at h'
                exact AppState.noConfusion h'
              · rw [if_neg h5] at h'
                by_cases h6 : c = 'h'
                · rw [if_pos h6] at h'
                  exact AppState.noConfusion h'
                · rw [if_neg h6] at h'
                  by_cases h7 : c = 's'
                  · rw [if_pos h7] at h'
                    exact AppState.noConfusion h'
                  · rw [if_neg h7] at h'
                    exact AppState.noConfusion h'
  case PopupPasswordInput =>
    simp only [on_key_event] at h'
    cases k
    case char c => exact AppState.noConfusion h'
    case backspace => exact AppState.noConfusion h'
    case up => exact AppState.noConfusion h'
    case down => exact AppState.noConfusion h'
    case ctrlc => exact AppState.noConfusion h'
    case esc => exact AppState.noConfusion h'
    case enter =>
      simp only [on_key_password] at h'
      cases hem : strIsEmpty pwd
      · refine Or.inr ⟨rfl, rfl, ?_⟩
        simp only [on_key_event, on_key_password]
        rw [if_pos (by rw [hem]; decide)]
      · rw [if_neg (by rw [hem]; decide)] at h'
        exact AppState.noConfusion h'

/-- C9 (confirmed): the system enters the trim-running state only from the
password popup with a nonempty credential and a nonempty selected-eligible
set, which `execute_trim` captures for the worker; a confirmation with
zero eligible selections only opens the informational popup, acknowledged
by Enter or Esc back to `Ready` with the collection untouched, and with at
least one selection it opens the password popup with a cleared credential
before any trim starts. -/
theorem C9_trim_gate (s s' : App) :
    (ReachableApp s → Step s s' → s'.state = AppState.Trimming →
      s.state = AppState.Trimming ∨
      (s.state = AppState.PopupPasswordInput ∧ strIsEmpty s.password_input = false ∧
        0 < (selectedEligible s.apps).length ∧ s' = execute_trim s ∧
        s'.trim_password = s.password_input ∧ s'.trim_captured = selectedEligible s.apps ∧
        s'.trim_captured ≠ [])) ∧
    (s.state = AppState.Ready → (selectedEligible s.apps).length = 0 →
      on_key_event s Key.enter = { s with state := AppState.PopupNoSelection }) ∧
    (s.state = AppState.Ready → 0 < (selectedEligible s.apps).length →
      on_key_event s Key.enter =
        { s with password_input := "", state := AppState.PopupPasswordInput }) ∧
    (s.state = AppState.PopupNoSelection →
      (on_key_event s Key.enter).state = AppState.Ready ∧
      (on_key_event s Key.enter).apps = s.apps ∧
      (on_key_event s Key.esc).state = AppState.Ready ∧
      (on_key_event s Key.esc).apps = s.apps) := by
  refine ⟨?_, ?_, ?_, ?_⟩
  · intro hreach hstep h'
    cases hstep with
    | key k =>
      rcases on_key_trim_entry s k h' with hL | ⟨hppi, hpw, heq⟩
      · exact Or.inl hL
      · have hcount := popup_invariant s hreach hppi
        refine Or.inr ⟨hppi, hpw, hcount, heq, ?_, ?_, ?_⟩
        · rw [heq]
          rfl
        · rw [heq]
          rfl
        · rw [heq]
          show selectedEligible s.apps ≠ []
          exact List.length_pos.mp hcount
    | scanDeliver cs h0 =>
      simp [deliver_scan] at h'
    | trimDeliver cs h0 =>
      simp [deliver_trim] at h'
  · obtain ⟨run, apps, selI, st, pwd, showNT, mode, tcap, tpw⟩ := s
    intro hR hc
    subst hR
    simp only [on_key_event, on_key_ready]
    unfold start_trim
    rw [if_pos hc]
  · obtain ⟨run, apps, selI, st, pwd, showNT, mode, tcap, tpw⟩ := s
    intro hR hc
    subst hR
    simp only [on_key_event, on_key_ready]
    unfold start_trim
    rw [if_neg (by omega)]
  · obtain ⟨run, apps, selI, st, pwd, showNT, mode, tcap, tpw⟩ := s
    intro hP
    subst hP
    exact ⟨rfl, rfl, rfl, rfl⟩

/-! ## Concrete sanity checks -/

/-- A scan over a plain file, a universal bundle, an Intel-only bundle and
an unanalyzable bundle keeps exactly the universal one, unselected. -/
theorem scan_applications_demo :
    scan_applications [candFile, candAlpha, candIntel, candBroken] =
      [{ name := "Alpha", path := "/Applications/Alpha.app",
         binary_path := "/Applications/Alpha.app/Contents/MacOS/Alpha",
         architectures := [sliceX86, sliceArm], selected := false }] := by
  decide

/-- A trim run whose strips all fail still visits both entries in order and
never invokes the ownership restore. -/
theorem trim_events_demo :
    trim_events [appAlpha, appBravo] oracleFail =
      [TrimEvent.progress 1 2 "Alpha",
       TrimEvent.strip 0 "/Applications/Alpha.app/Contents/MacOS/Alpha",
       TrimEvent.progress 2 2 "Bravo",
       TrimEvent.strip 1 "/Applications/Bravo.app/Contents/MacOS/Bravo"] := by
  decide

/-- Toggle-all from a mixed selection selects every eligible entry. -/
theorem toggle_select_all_demo :
    toggle_select_all [appAlpha, appBravo] =
      [appAlpha, { appBravo with selected := true }] := by
  decide

end Bintrim
